import Mathlib

/-!
Verification of the binder substrate of `formality-types`
(`src/crates/formality-types/src/grammar/binder.rs`).

The Rust code is shallowly embedded below.  Types and operations defined in
`binder.rs` itself (`Binder`, `Binder::open`, `Binder::new`,
`Binder::instantiate`, `fresh_bound_var`, `impl Fold for Binder`,
`impl UpcastFrom for Binder`) are translated directly from the source; the
collaborator pieces the source file uses but does not define (the variable
model, the term traversal contract of spec section 4.2, the `Substitution`
map) are modelled from the spec, as marked in the doc comments.  The
process-wide atomic counter is modelled as explicit state threading: each
allocating operation takes the current counter value and returns the new one.
-/

namespace Formality

/-- The closed set of variable sorts (`ParameterKind`): type and lifetime. -/
inductive ParameterKind where
  | ty
  | lt
deriving DecidableEq

/-- Modelled from the spec (section 3, "Bound reference"): a variable
occurrence, `Variable::BoundVar(BoundVar { debruijn, var_index })` in the
source.  A present `debruijn` depth means the variable is still bound,
relative to the current tree position; an absent depth means the variable is
free and `var_index` is a global identifier. -/
structure Variable where
  debruijn : Option Nat
  var_index : Nat
deriving DecidableEq

/-- An opened-variable handle (`KindedVarIndex`): a free identifier paired
with its kind. -/
structure KindedVarIndex where
  kind : ParameterKind
  var_index : Nat
deriving DecidableEq

/-- Modelled from the spec (section 4.2): variable-level `shift_in`, the
depth-marker adjustment for moving under one additional binder.  Free
variables are untouched. -/
def Variable.shiftIn (v : Variable) : Variable :=
  match v.debruijn with
  | none => v
  | some d => ⟨some (d + 1), v.var_index⟩

/-- Modelled from the spec (sections 4.2 and 7): variable-level `shift_out`,
pulling a variable out from under one binder.  It fails (`none`) on a
depth-innermost variable, which belongs to the enclosing binder and cannot
escape; free variables are untouched. -/
def Variable.shiftOut (v : Variable) : Option Variable :=
  match v.debruijn with
  | none => some v
  | some 0 => none
  | some (d + 1) => some ⟨some d, v.var_index⟩

/-- Modelled from the spec (sections 4.2 and 6): a concrete term kind
implementing the traversal contract.  `var` lifts a variable plus its kind
into a term (the collaborator-provided constructor), `app` is an ordinary
structural node, and `bind` is a nested `Binder` occurring inside a term;
the traversal cases of `bind` are translated from `impl Fold for Binder`
(source lines 139-171). -/
inductive Term where
  | var : ParameterKind → Variable → Term
  | app : Term → Term → Term
  | bind : List ParameterKind → Term → Term
deriving DecidableEq

/-- `SubstitutionFn`: the callback handed to `substitute`. -/
abbrev SubstitutionFn : Type := ParameterKind → Variable → Option Term

/-- Term-level `shift_in`.  The `bind` case is the translation of
`Fold for Binder::shift_in` (source lines 164-170); the `var` and `app`
cases are modelled from the spec traversal contract. -/
def Term.shiftIn : Term → Term
  | .var k v => .var k v.shiftIn
  | .app a b => .app a.shiftIn b.shiftIn
  | .bind ks t => .bind ks t.shiftIn

/-- Modelled from the spec (section 4.2): term-level `shift_out`, failing
whenever some variable in the term cannot be shifted out. -/
def Term.shiftOut : Term → Option Term
  | .var k v => (v.shiftOut).map (Term.var k)
  | .app a b =>
    match a.shiftOut, b.shiftOut with
    | some a2, some b2 => some (.app a2 b2)
    | _, _ => none
  | .bind ks t => (t.shiftOut).map (Term.bind ks)

/-- The wrapped callback built by `Fold for Binder::substitute` (source
lines 141-152): try to shift the variable out through the binder; if that
fails the variable is bound by this binder and is left untouched; otherwise
apply the callback, and shift any replacement back in. -/
def wrapSubst (f : SubstitutionFn) : SubstitutionFn := fun k v =>
  match v.shiftOut with
  | none => none
  | some v1 =>
    match f k v1 with
    | none => none
    | some p => some p.shiftIn

/-- Modelled from the spec (section 4.2): term traversal.  At each variable
the callback decides an optional replacement; children are combined without
otherwise altering structure; crossing a nested binder wraps the callback as
`Fold for Binder::substitute` does (source lines 139-158). -/
def Term.substitute : SubstitutionFn → Term → Term
  | f, .var k v => (f k v).getD (.var k v)
  | f, .app a b => .app (Term.substitute f a) (Term.substitute f b)
  | f, .bind ks t => .bind ks (Term.substitute (wrapSubst f) t)

/-- `Binder<T>` (source lines 18-22): an ordered signature of kinds plus a
payload term. -/
structure Binder (α : Type) where
  kinds : List ParameterKind
  term : α
deriving DecidableEq

/-- Modelled from the spec (section 3, "Substitution"): a finite transient
map from variable to replacement, as the list of pairs the binder
operations build. -/
abbrev Substitution : Type := List (Variable × Term)

/-- First-match lookup in a substitution. -/
def slookup : Substitution → Variable → Option Term
  | [], _ => none
  | (w, p) :: rest, v => if w = v then some p else slookup rest v

/-- Modelled from the spec: `Substitution::apply` rewrites the term,
replacing each variable by its mapped value if any; capture avoidance is
provided by `Term.substitute` itself. -/
def Substitution.apply (s : Substitution) (t : Term) : Term :=
  Term.substitute (fun _ v => slookup s v) t

/-- `fresh_bound_var` (source lines 123-137).  The process-wide atomic
counter is explicit state: the call takes the current counter value and
returns the minted handle, the free variable, and the incremented counter. -/
def fresh_bound_var (kind : ParameterKind) (c : Nat) : (KindedVarIndex × Variable) × Nat :=
  ((⟨kind, c⟩, ⟨none, c⟩), c + 1)

/-- The handle list built by `Binder::open` (source lines 32-50): one fresh
variable per signature position, counter threaded left to right. -/
def openVarKinds : List ParameterKind → Nat → List KindedVarIndex
  | [], _ => []
  | k :: rest, c => (fresh_bound_var k c).1.1 :: openVarKinds rest (fresh_bound_var k c).2

/-- The substitution built by `Binder::open` (source lines 32-50): the bound
reference at depth innermost, position `i`, maps to the fresh free variable
minted for position `i`, lifted into a term of the signature kind. -/
def openSubstList : List ParameterKind → Nat → Nat → Substitution
  | [], _, _ => []
  | k :: rest, i, c =>
    (⟨some 0, i⟩, Term.var k ⟨none, c⟩) :: openSubstList rest (i + 1) (c + 1)

/-- `Binder::open` (source lines 31-53), with the counter passed and
returned explicitly: returns the position-aligned handle list, the
rewritten term, and the new counter value. -/
def Binder.openB (b : Binder Term) (c : Nat) : (List KindedVarIndex × Term) × Nat :=
  ((openVarKinds b.kinds c, Substitution.apply (openSubstList b.kinds 0 c) b.term),
    c + b.kinds.length)

/-- The substitution built by `Binder::new` (source lines 58-74): each
listed free variable maps to the bound reference at depth innermost,
position equal to its list index, lifted into a term of the listed kind. -/
def newSubstList : List KindedVarIndex → Nat → Substitution
  | [], _ => []
  | x :: rest, i =>
    (⟨none, x.var_index⟩, Term.var x.kind ⟨some 0, i⟩) :: newSubstList rest (i + 1)

/-- `Binder::new` (source lines 57-78). -/
def Binder.new (vars : List KindedVarIndex) (term : Term) : Binder Term :=
  ⟨vars.map (·.kind), Substitution.apply (newSubstList vars 0) term⟩

/-- `Fold for Binder::substitute` (source lines 140-158). -/
def Binder.substitute (b : Binder Term) (f : SubstitutionFn) : Binder Term :=
  ⟨b.kinds, Term.substitute (wrapSubst f) b.term⟩

/-- `Fold for Binder::shift_in` (source lines 164-170). -/
def Binder.shiftIn (b : Binder Term) : Binder Term :=
  ⟨b.kinds, b.term.shiftIn⟩

/-- `UpcastFrom for Binder` (source lines 173-185): the payload upcast from
the narrower to the broader representation is modelled as an explicit
embedding function. -/
def Binder.upcastFrom {α β : Type} (emb : α → β) (b : Binder α) : Binder β :=
  ⟨b.kinds, emb b.term⟩

/-- `Binder::len` (source lines 91-93). -/
def Binder.len {α : Type} (b : Binder α) : Nat := b.kinds.length

/-- `Binder::peek` (source lines 116-118). -/
def Binder.peek {α : Type} (b : Binder α) : α := b.term

/-- A fallible substitution callback: the outer `none` models a Rust panic
(such as out-of-bounds `Vec` indexing), the inner option is the ordinary
replacement decision. -/
abbrev SubstOFn : Type := ParameterKind → Variable → Option (Option Term)

/-- The panic-aware version of `wrapSubst`: a failed `shift_out` still means
"leave the variable untouched" (no panic); a panic in the callback
propagates. -/
def wrapSubstO (f : SubstOFn) : SubstOFn := fun k v =>
  match v.shiftOut with
  | none => some none
  | some v1 => (f k v1).map (Option.map Term.shiftIn)

/-- Panic-aware term traversal: like `Term.substitute`, except that a
callback panic aborts the whole traversal. -/
def Term.substO : SubstOFn → Term → Option Term
  | f, .var k v => (f k v).map (fun r => r.getD (.var k v))
  | f, .app a b =>
    match Term.substO f a, Term.substO f b with
    | some a2, some b2 => some (.app a2 b2)
    | _, _ => none
  | f, .bind ks t => (Term.substO (wrapSubstO f) t).map (.bind ks)

/-- The replacement table built by `Binder::instantiate` (source lines
97-102): one `op` call per signature position, in increasing position
order, with the `FnMut` operator's hidden state modelled as explicit state
threading. -/
def instTableS {σ : Type} : List ParameterKind → (σ → ParameterKind → Nat → Term × σ) → Nat → σ → List Term × σ
  | [], _, _, s => ([], s)
  | k :: rest, op, i, s =>
    let r := op s k i
    let rr := instTableS rest op (i + 1) r.2
    (r.1 :: rr.1, rr.2)

/-- The callback used by `Binder::instantiate` (source lines 104-111): a
variable at depth innermost indexes the prebuilt table (indexing out of
range is the Rust panic, modelled as the outer `none`); every other
variable is left untouched. -/
def instFnOf (table : List Term) : SubstOFn := fun _ v =>
  match v.debruijn with
  | some 0 => (table.get? v.var_index).map some
  | _ => some none

/-- `Binder::instantiate` (source lines 96-112), with a stateful operator:
the table is built first, then the payload is traversed using it. -/
def Binder.instantiateS {σ : Type} (b : Binder Term) (op : σ → ParameterKind → Nat → Term × σ) (s : σ) : Option Term × σ :=
  let r := instTableS b.kinds op 0 s
  (Term.substO (instFnOf r.1) b.term, r.2)

/-- `Binder::instantiate` (source lines 96-112) with a pure operator. -/
def Binder.instantiate (b : Binder Term) (op : ParameterKind → Nat → Term) : Option Term :=
  (b.instantiateS (fun (s : Unit) k i => (op k i, s)) ()).1

/-- A sequence of `Binder::open` calls with the counter threaded through
(source lines 31-53 and 123-137): returns each call's handle list and the
final counter. -/
def opensSeq : List (Binder Term) → Nat → List (List KindedVarIndex) × Nat
  | [], c => ([], c)
  | b :: bs, c =>
    let r := b.openB c
    let rest := opensSeq bs r.2
    (r.1.1 :: rest.1, rest.2)

/-- All free identifiers returned across a sequence of `open` calls. -/
def allOpenedIndices (bs : List (Binder Term)) (c : Nat) : List Nat :=
  ((opensSeq bs c).1.flatten).map (·.var_index)

/-!  Iterated shift operations: the effective callback seen at nesting
depth `l` inside a payload is `wrapSubst` applied `l` times, which shifts a
variable out `l` times before the lookup and shifts a replacement in `l`
times after it. -/

/-- `wrapSubst` iterated. -/
def wrapIter : Nat → SubstitutionFn → SubstitutionFn
  | 0, f => f
  | n + 1, f => wrapSubst (wrapIter n f)

/-- `wrapSubstO` iterated. -/
def wrapOIter : Nat → SubstOFn → SubstOFn
  | 0, f => f
  | n + 1, f => wrapSubstO (wrapOIter n f)

/-- `Variable.shiftOut` iterated. -/
def shiftOutIterV : Nat → Variable → Option Variable
  | 0, v => some v
  | n + 1, v => (v.shiftOut).bind (shiftOutIterV n)

/-- `Variable.shiftIn` iterated. -/
def shiftInIterV : Nat → Variable → Variable
  | 0, v => v
  | n + 1, v => (shiftInIterV n v).shiftIn

/-- `Term.shiftIn` iterated. -/
def shiftInIterT : Nat → Term → Term
  | 0, t => t
  | n + 1, t => (shiftInIterT n t).shiftIn

/-!  Occurrence predicates.  `LvlOk P lvl t` says every variable occurrence
in `t` satisfies `P` at its effective level: the occurrence's nesting depth
inside `t` plus the starting level `lvl`.  `lvlOkB` is the boolean
(decidable) version used in theorem hypotheses. -/

/-- Every variable occurrence in the term satisfies `P` at its level. -/
def LvlOk (P : Nat → ParameterKind → Variable → Prop) : Nat → Term → Prop
  | lvl, .var k v => P lvl k v
  | lvl, .app a b => LvlOk P lvl a ∧ LvlOk P lvl b
  | lvl, .bind _ t => LvlOk P (lvl + 1) t

/-- Boolean version of `LvlOk`. -/
def lvlOkB (p : Nat → ParameterKind → Variable → Bool) : Nat → Term → Bool
  | lvl, .var k v => p lvl k v
  | lvl, .app a b => lvlOkB p lvl a && lvlOkB p lvl b
  | lvl, .bind _ t => lvlOkB p (lvl + 1) t

/-! Basic properties of the shift operations. -/

theorem Variable.shiftOut_shiftIn (v : Variable) : v.shiftIn.shiftOut = some v := by
  cases v with
  | mk d i => cases d <;> rfl

theorem Variable.shiftIn_shiftOut (v w : Variable) (hvw : v.shiftOut = some w) :
    w.shiftIn = v := by
  cases v with
  | mk d i =>
    cases d with
    | none =>
      simp only [Variable.shiftOut] at hvw
      cases hvw
      rfl
    | some d =>
      cases d with
      | zero => simp [Variable.shiftOut] at hvw
      | succ e =>
        simp only [Variable.shiftOut] at hvw
        cases hvw
        rfl

theorem shiftOutIterV_free (l j : Nat) : shiftOutIterV l ⟨none, j⟩ = some ⟨none, j⟩ := by
  induction l with
  | zero => rfl
  | succ n ih => simpa [shiftOutIterV, Variable.shiftOut] using ih

theorem shiftOutIterV_bound (l d j : Nat) :
    shiftOutIterV l ⟨some d, j⟩ = if d < l then none else some ⟨some (d - l), j⟩ := by
  induction l generalizing d with
  | zero => simp [shiftOutIterV]
  | succ n ih =>
    cases d with
    | zero => simp [shiftOutIterV, Variable.shiftOut]
    | succ e =>
      have hstep : shiftOutIterV (n + 1) ⟨some (e + 1), j⟩ = shiftOutIterV n ⟨some e, j⟩ := rfl
      rw [hstep, ih e]
      by_cases hlt : e < n
      · simp [hlt, Nat.succ_lt_succ hlt]
      · have hlt2 : ¬ e + 1 < n + 1 := by omega
        have hsub : e + 1 - (n + 1) = e - n := by omega
        simp [hlt, hlt2, hsub]

theorem shiftInIterV_shiftOutIterV (l : Nat) (v w : Variable)
    (hvw : shiftOutIterV l v = some w) : shiftInIterV l w = v := by
  induction l generalizing v with
  | zero =>
    cases hvw
    rfl
  | succ n ih =>
    rw [shiftOutIterV] at hvw
    cases hv : v.shiftOut with
    | none => rw [hv] at hvw; cases hvw
    | some v1 =>
      rw [hv] at hvw
      show (shiftInIterV n w).shiftIn = v
      rw [ih v1 hvw]
      exact Variable.shiftIn_shiftOut v v1 hv

theorem shiftInIterT_var (l : Nat) (k : ParameterKind) (v : Variable) :
    shiftInIterT l (.var k v) = .var k (shiftInIterV l v) := by
  induction l with
  | zero => rfl
  | succ n ih => rw [shiftInIterT, ih]; rfl

/-- Evaluation of the iterated wrapped callback: shift the variable out `l`
times, apply the callback, shift the replacement in `l` times. -/
theorem wrapIter_eval (l : Nat) (f : SubstitutionFn) (k : ParameterKind) (v : Variable) :
    wrapIter l f k v = (shiftOutIterV l v).bind (fun w => (f k w).map (shiftInIterT l)) := by
  induction l generalizing v with
  | zero =>
    cases hf : f k v <;> simp [wrapIter, shiftOutIterV, shiftInIterT, hf]
  | succ n ih =>
    show wrapSubst (wrapIter n f) k v = _
    rw [wrapSubst, shiftOutIterV]
    cases hv : v.shiftOut with
    | none => simp
    | some v1 =>
      simp only [Option.some_bind]
      rw [ih v1]
      cases hw : shiftOutIterV n v1 with
      | none => simp
      | some w =>
        cases hfw : f k w with
        | none => simp [hfw]
        | some p => simp [hfw, shiftInIterT]

theorem shiftIn_substitute : ∀ (p : Term) (g : SubstitutionFn),
    Term.substitute (wrapSubst g) p.shiftIn = (Term.substitute g p).shiftIn := by
  intro p
  induction p with
  | var k v =>
    intro g
    show Term.substitute (wrapSubst g) (.var k v.shiftIn) = _
    simp only [Term.substitute, wrapSubst, Variable.shiftOut_shiftIn]
    cases hg : g k v <;> simp [hg, Term.shiftIn]
  | app a b iha ihb =>
    intro g
    simp [Term.shiftIn, Term.substitute, iha, ihb]
  | bind ks t ih =>
    intro g
    simp [Term.shiftIn, Term.substitute, ih]

theorem shiftInIterT_substitute (l : Nat) (p : Term) (g : SubstitutionFn) :
    Term.substitute (wrapIter l g) (shiftInIterT l p) = shiftInIterT l (Term.substitute g p) := by
  induction l with
  | zero => rfl
  | succ n ih =>
    show Term.substitute (wrapSubst (wrapIter n g)) (shiftInIterT n p).shiftIn = _
    rw [shiftIn_substitute, ih]
    rfl

theorem substitute_congr : ∀ (t : Term) (f g : SubstitutionFn),
    (∀ k v, f k v = g k v) → Term.substitute f t = Term.substitute g t := by
  intro t
  induction t with
  | var k v => intro f g hfg; simp [Term.substitute, hfg k v]
  | app a b iha ihb =>
    intro f g hfg
    simp [Term.substitute, iha f g hfg, ihb f g hfg]
  | bind ks t ih =>
    intro f g hfg
    have hw : ∀ k v, wrapSubst f k v = wrapSubst g k v := by
      intro k v
      simp only [wrapSubst]
      cases hv : v.shiftOut <;> simp [hv, hfg]
    simp [Term.substitute, ih _ _ hw]

theorem substitute_none_fn (t : Term) : Term.substitute (fun _ _ => none) t = t := by
  induction t with
  | var k v => rfl
  | app a b iha ihb => simp [Term.substitute, iha, ihb]
  | bind ks t ih =>
    simp only [Term.substitute]
    rw [substitute_congr t (wrapSubst fun _ _ => none) (fun _ _ => none) ?_, ih]
    intro k v
    cases hv : v.shiftOut <;> simp [wrapSubst, hv]

/-! The substitution fusion engine: substituting with `f` and then with `g`
equals a single substitution with `h`, provided the pointwise fusion
condition holds at every variable occurrence of the term. -/

/-- Pointwise fusion: at this variable, `f` followed by `g` behaves like
`h`. -/
def FuseAt (f g h : SubstitutionFn) (k : ParameterKind) (v : Variable) : Prop :=
  match f k v with
  | none => g k v = h k v
  | some p => Term.substitute g p = (h k v).getD (.var k v)

/-- Level-indexed fusion condition: the occurrence, shifted out past the
binders enclosing it, satisfies `FuseAt`. -/
def FuseCond (f g h : SubstitutionFn) (lvl : Nat) (k : ParameterKind) (v : Variable) : Prop :=
  ∀ w, shiftOutIterV lvl v = some w → FuseAt f g h k w

theorem substitute_fuse_aux (f g h : SubstitutionFn) :
    ∀ (t : Term) (lvl : Nat), LvlOk (FuseCond f g h) lvl t →
      Term.substitute (wrapIter lvl g) (Term.substitute (wrapIter lvl f) t) =
        Term.substitute (wrapIter lvl h) t := by
  intro t
  induction t with
  | var k v =>
    intro lvl hOk
    have hc : FuseCond f g h lvl k v := hOk
    simp only [Term.substitute]
    rw [wrapIter_eval lvl f k v, wrapIter_eval lvl h k v]
    cases hw : shiftOutIterV lvl v with
    | none =>
      simp only [Option.none_bind, Option.getD_none]
      show Term.substitute (wrapIter lvl g) (.var k v) = .var k v
      simp only [Term.substitute]
      rw [wrapIter_eval lvl g k v, hw]
      rfl
    | some w =>
      have hFA := hc w hw
      simp only [Option.some_bind]
      cases hf : f k w with
      | none =>
        simp only [hf, Option.map_none', Option.getD_none]
        simp only [FuseAt, hf] at hFA
        show Term.substitute (wrapIter lvl g) (.var k v) = _
        simp only [Term.substitute]
        rw [wrapIter_eval lvl g k v, hw]
        simp only [Option.some_bind]
        rw [hFA]
      | some p =>
        simp only [hf, Option.map_some', Option.getD_some]
        rw [shiftInIterT_substitute]
        simp only [FuseAt, hf] at hFA
        rw [hFA]
        cases hh : h k w with
        | none =>
          simp only [hh, Option.getD_none, Option.map_none']
          rw [shiftInIterT_var, shiftInIterV_shiftOutIterV lvl v w hw]
        | some q => simp [hh]
  | app a b iha ihb =>
    intro lvl hOk
    simp only [Term.substitute]
    rw [iha lvl hOk.1, ihb lvl hOk.2]
  | bind ks t ih =>
    intro lvl hOk
    simp only [Term.substitute]
    exact congrArg (Term.bind ks) (ih (lvl + 1) hOk)

theorem substitute_fuse (f g h : SubstitutionFn) (t : Term)
    (hc : LvlOk (FuseCond f g h) 0 t) :
    Term.substitute g (Term.substitute f t) = Term.substitute h t :=
  substitute_fuse_aux f g h t 0 hc

/-- No-effect engine: if at every occurrence the effective callback yields
no replacement, the substitution is the identity. -/
theorem substitute_eq_self_aux (f : SubstitutionFn) :
    ∀ (t : Term) (lvl : Nat), LvlOk (fun l k v => wrapIter l f k v = none) lvl t →
      Term.substitute (wrapIter lvl f) t = t := by
  intro t
  induction t with
  | var k v =>
    intro lvl hOk
    have hc : wrapIter lvl f k v = none := hOk
    simp [Term.substitute, hc]
  | app a b iha ihb =>
    intro lvl hOk
    simp only [Term.substitute]
    rw [iha lvl hOk.1, ihb lvl hOk.2]
  | bind ks t ih =>
    intro lvl hOk
    simp only [Term.substitute]
    exact congrArg (Term.bind ks) (ih (lvl + 1) hOk)

/-! Transport between the occurrence predicates. -/

theorem lvlOk_imp (P Q : Nat → ParameterKind → Variable → Prop)
    (himp : ∀ l k v, P l k v → Q l k v) :
    ∀ (t : Term) (lvl : Nat), LvlOk P lvl t → LvlOk Q lvl t := by
  intro t
  induction t with
  | var k v => intro lvl hOk; exact himp lvl k v hOk
  | app a b iha ihb => intro lvl hOk; exact ⟨iha lvl hOk.1, ihb lvl hOk.2⟩
  | bind ks t ih => intro lvl hOk; exact ih (lvl + 1) hOk

theorem lvlOk_of_B (p : Nat → ParameterKind → Variable → Bool)
    (P : Nat → ParameterKind → Variable → Prop)
    (hp : ∀ l k v, p l k v = true → P l k v) :
    ∀ (t : Term) (lvl : Nat), lvlOkB p lvl t = true → LvlOk P lvl t := by
  intro t
  induction t with
  | var k v => intro lvl hOk; exact hp lvl k v hOk
  | app a b iha ihb =>
    intro lvl hOk
    rw [lvlOkB, Bool.and_eq_true] at hOk
    exact ⟨iha lvl hOk.1, ihb lvl hOk.2⟩
  | bind ks t ih => intro lvl hOk; exact ih (lvl + 1) hOk

/-! The panic-aware engine: if the callback never panics at an occurrence
of the term, the panic-aware traversal returns the plain substitution. -/

/-- Evaluation of the iterated panic-aware wrapped callback. -/
theorem wrapOIter_eval (l : Nat) (f : SubstOFn) (k : ParameterKind) (v : Variable) :
    wrapOIter l f k v =
      match shiftOutIterV l v with
      | none => some none
      | some w => (f k w).map (Option.map (shiftInIterT l)) := by
  induction l generalizing v with
  | zero =>
    cases hf : f k v with
    | none => simp [wrapOIter, shiftOutIterV, hf]
    | some r => cases r <;> simp [wrapOIter, shiftOutIterV, hf, shiftInIterT]
  | succ n ih =>
    show wrapSubstO (wrapOIter n f) k v = _
    rw [wrapSubstO, shiftOutIterV]
    cases hv : v.shiftOut with
    | none => simp
    | some v1 =>
      simp only [Option.some_bind]
      rw [ih v1]
      cases hw : shiftOutIterV n v1 with
      | none => simp
      | some w =>
        cases hfw : f k w with
        | none => simp [hfw]
        | some r => cases r <;> simp [hfw, shiftInIterT]

/-- The callback does not panic at this occurrence. -/
def NoPanicCond (f : SubstOFn) (lvl : Nat) (k : ParameterKind) (v : Variable) : Prop :=
  ∀ w, shiftOutIterV lvl v = some w → (f k w).isSome

/-- Collapse of a fallible callback to the total one it computes when it
does not panic. -/
def unwrapO (f : SubstOFn) : SubstitutionFn := fun k v => (f k v).getD none

theorem substO_eq_substitute_aux (f : SubstOFn) :
    ∀ (t : Term) (lvl : Nat), LvlOk (NoPanicCond f) lvl t →
      Term.substO (wrapOIter lvl f) t =
        some (Term.substitute (wrapIter lvl (unwrapO f)) t) := by
  intro t
  induction t with
  | var k v =>
    intro lvl hOk
    have hc : NoPanicCond f lvl k v := hOk
    simp only [Term.substO, Term.substitute]
    rw [wrapOIter_eval lvl f k v, wrapIter_eval lvl (unwrapO f) k v]
    cases hw : shiftOutIterV lvl v with
    | none => rfl
    | some w =>
      have hs := hc w hw
      cases hfw : f k w with
      | none => rw [hfw] at hs; cases hs
      | some r => cases r <;> simp [hfw, unwrapO]
  | app a b iha ihb =>
    intro lvl hOk
    simp only [Term.substO, Term.substitute]
    rw [iha lvl hOk.1, ihb lvl hOk.2]
  | bind ks t ih =>
    intro lvl hOk
    show (Term.substO (wrapOIter (lvl + 1) f) t).map (Term.bind ks) =
      some (.bind ks (Term.substitute (wrapIter (lvl + 1) (unwrapO f)) t))
    rw [ih (lvl + 1) hOk]
    rfl

theorem substO_eq_substitute (f : SubstOFn) (t : Term) (hOk : LvlOk (NoPanicCond f) 0 t) :
    Term.substO f t = some (Term.substitute (unwrapO f) t) :=
  substO_eq_substitute_aux f t 0 hOk

theorem lvlOk_conj (P Q : Nat → ParameterKind → Variable → Prop) :
    ∀ (t : Term) (lvl : Nat), LvlOk P lvl t → LvlOk Q lvl t →
      LvlOk (fun l k v => P l k v ∧ Q l k v) lvl t := by
  intro t
  induction t with
  | var k v => intro lvl h1 h2; exact ⟨h1, h2⟩
  | app a b iha ihb =>
    intro lvl h1 h2
    exact ⟨iha lvl h1.1 h2.1, ihb lvl h1.2 h2.2⟩
  | bind ks t ih => intro lvl h1 h2; exact ih (lvl + 1) h1 h2

/-! Characterizations of the substitution lookups built by the binder
operations. -/

theorem slookup_openSubstList_bound0 (ks : List ParameterKind) :
    ∀ (i c j : Nat), slookup (openSubstList ks i c) ⟨some 0, j⟩ =
      if i ≤ j then (ks.get? (j - i)).map (fun kk => Term.var kk ⟨none, c + (j - i)⟩)
      else none := by
  induction ks with
  | nil => intro i c j; simp [openSubstList, slookup]
  | cons k rest ih =>
    intro i c j
    simp only [openSubstList, slookup]
    by_cases hji : i = j
    · subst hji
      simp
    · have hne : (⟨some 0, i⟩ : Variable) ≠ ⟨some 0, j⟩ := by
        intro hcon
        exact hji (congrArg Variable.var_index hcon)
      rw [if_neg hne, ih (i + 1) (c + 1) j]
      by_cases hij : i ≤ j
      · have h1 : i + 1 ≤ j := by omega
        have h2 : j - i = (j - (i + 1)) + 1 := by omega
        have h3 : c + 1 + (j - (i + 1)) = c + (j - i) := by omega
        simp [h1, hij, h2, h3]
      · have h1 : ¬ i + 1 ≤ j := by omega
        simp [h1, hij]

theorem slookup_openSubstList_boundS (ks : List ParameterKind) :
    ∀ (i c e j : Nat), slookup (openSubstList ks i c) ⟨some (e + 1), j⟩ = none := by
  induction ks with
  | nil => intro i c e j; rfl
  | cons k rest ih =>
    intro i c e j
    simp only [openSubstList, slookup]
    have hne : (⟨some 0, i⟩ : Variable) ≠ ⟨some (e + 1), j⟩ := by
      intro hcon
      cases congrArg Variable.debruijn hcon
    rw [if_neg hne]
    exact ih (i + 1) (c + 1) e j

theorem slookup_openSubstList_free (ks : List ParameterKind) :
    ∀ (i c j : Nat), slookup (openSubstList ks i c) ⟨none, j⟩ = none := by
  induction ks with
  | nil => intro i c j; rfl
  | cons k rest ih =>
    intro i c j
    simp only [openSubstList, slookup]
    have hne : (⟨some 0, i⟩ : Variable) ≠ ⟨none, j⟩ := by
      intro hcon
      cases congrArg Variable.debruijn hcon
    rw [if_neg hne]
    exact ih (i + 1) (c + 1) j

/-- First matching position (and entry) of a free identifier in a variable
list; this is what first-match lookup in `newSubstList` computes. -/
def firstMatch : List KindedVarIndex → Nat → Option (Nat × KindedVarIndex)
  | [], _ => none
  | x :: rest, j =>
    if x.var_index = j then some (0, x)
    else (firstMatch rest j).map (fun r => (r.1 + 1, r.2))

theorem slookup_newSubstList_free (vs : List KindedVarIndex) :
    ∀ (i j : Nat), slookup (newSubstList vs i) ⟨none, j⟩ =
      (firstMatch vs j).map (fun r => Term.var r.2.kind ⟨some 0, i + r.1⟩) := by
  induction vs with
  | nil => intro i j; rfl
  | cons x rest ih =>
    intro i j
    simp only [newSubstList, slookup, firstMatch]
    by_cases hx : x.var_index = j
    · subst hx
      simp
    · have hne : (⟨none, x.var_index⟩ : Variable) ≠ ⟨none, j⟩ := by
        intro hcon
        exact hx (congrArg Variable.var_index hcon)
      rw [if_neg hne, if_neg hx, ih (i + 1) j]
      cases hfm : firstMatch rest j with
      | none => rfl
      | some r =>
        have harith : i + 1 + r.1 = i + (r.1 + 1) := by omega
        simp [harith]

theorem slookup_newSubstList_bound (vs : List KindedVarIndex) :
    ∀ (i d j : Nat), slookup (newSubstList vs i) ⟨some d, j⟩ = none := by
  induction vs with
  | nil => intro i d j; rfl
  | cons x rest ih =>
    intro i d j
    simp only [newSubstList, slookup]
    have hne : (⟨none, x.var_index⟩ : Variable) ≠ ⟨some d, j⟩ := by
      intro hcon
      cases congrArg Variable.debruijn hcon
    rw [if_neg hne]
    exact ih (i + 1) d j

theorem firstMatch_openVarKinds (ks : List ParameterKind) :
    ∀ (c j : Nat), firstMatch (openVarKinds ks c) j =
      if c ≤ j then (ks.get? (j - c)).map (fun kk => (j - c, (⟨kk, j⟩ : KindedVarIndex)))
      else none := by
  induction ks with
  | nil => intro c j; simp [openVarKinds, firstMatch]
  | cons k rest ih =>
    intro c j
    simp only [openVarKinds, fresh_bound_var, firstMatch]
    by_cases hcj : c = j
    · subst hcj
      simp
    · rw [if_neg hcj, ih (c + 1) j]
      by_cases hc : c ≤ j
      · have h1 : c + 1 ≤ j := by omega
        have h2 : j - c = (j - (c + 1)) + 1 := by omega
        rw [if_pos h1, if_pos hc, h2]
        cases hg : rest.get? (j - (c + 1)) <;>
          rw [List.get?_eq_getElem?] at hg <;> simp [hg]
      · have h1 : ¬ c + 1 ≤ j := by omega
        simp [h1, hc]

theorem openVarKinds_map_kind (ks : List ParameterKind) :
    ∀ c, (openVarKinds ks c).map (·.kind) = ks := by
  induction ks with
  | nil => intro c; rfl
  | cons k rest ih => intro c; simp [openVarKinds, fresh_bound_var, ih]

theorem openVarKinds_map_index (ks : List ParameterKind) :
    ∀ c, (openVarKinds ks c).map (·.var_index) = List.range' c ks.length := by
  induction ks with
  | nil => intro c; rfl
  | cons k rest ih => intro c; simp [openVarKinds, fresh_bound_var, ih, List.range']

/-! Boolean well-formedness predicates used as theorem hypotheses. -/

/-- Every free variable occurring in the term has its global identifier
below `c` (spec section 3: identifiers already minted are below the
current counter value). -/
def freeBelowB (c : Nat) : Nat → ParameterKind → Variable → Bool := fun _ _ v =>
  match v.debruijn with
  | none => decide (v.var_index < c)
  | some _ => true

/-- Every reference owned by the outer binder (depth marker equal to the
occurrence level) whose position lies within the signature carries the
signature kind at that position (spec section 4.1: kind-correct
construction is the collaborator's responsibility). -/
def kindCoherentB (ks : List ParameterKind) : Nat → ParameterKind → Variable → Bool :=
  fun l k v =>
    match v.debruijn with
    | some d =>
      if d = l then
        match ks.get? v.var_index with
        | some kk => decide (k = kk)
        | none => true
      else true
    | none => true

/-! Claim C1: the open-then-new round trip. -/

/-- The substitution callback applied by `Binder::open`. -/
def openFn (ks : List ParameterKind) (c : Nat) : SubstitutionFn := fun _ v =>
  slookup (openSubstList ks 0 c) v

/-- The substitution callback applied by `Binder::new` to the term produced
by `Binder::open`. -/
def newFnOfOpen (ks : List ParameterKind) (c : Nat) : SubstitutionFn := fun _ v =>
  slookup (newSubstList (openVarKinds ks c) 0) v

theorem openNew_fuseAt_free (ks : List ParameterKind) (c : Nat) (k : ParameterKind)
    (j : Nat) (hj : j < c) :
    FuseAt (openFn ks c) (newFnOfOpen ks c) (fun _ _ => none) k ⟨none, j⟩ := by
  have hf : openFn ks c k ⟨none, j⟩ = none := slookup_openSubstList_free ks 0 c j
  simp only [FuseAt]
  rw [hf]
  show newFnOfOpen ks c k ⟨none, j⟩ = none
  show slookup (newSubstList (openVarKinds ks c) 0) ⟨none, j⟩ = none
  rw [slookup_newSubstList_free, firstMatch_openVarKinds]
  have hc : ¬ c ≤ j := by omega
  simp [hc]

theorem openNew_fuseAt_boundS (ks : List ParameterKind) (c : Nat) (k : ParameterKind)
    (e j : Nat) :
    FuseAt (openFn ks c) (newFnOfOpen ks c) (fun _ _ => none) k ⟨some (e + 1), j⟩ := by
  have hf : openFn ks c k ⟨some (e + 1), j⟩ = none :=
    slookup_openSubstList_boundS ks 0 c e j
  simp only [FuseAt]
  rw [hf]
  show newFnOfOpen ks c k ⟨some (e + 1), j⟩ = none
  exact slookup_newSubstList_bound (openVarKinds ks c) 0 (e + 1) j

theorem openNew_fuseAt_bound0 (ks : List ParameterKind) (c : Nat) (k : ParameterKind)
    (j : Nat) (hkj : ∀ kk, ks.get? j = some kk → k = kk) :
    FuseAt (openFn ks c) (newFnOfOpen ks c) (fun _ _ => none) k ⟨some 0, j⟩ := by
  have hf : openFn ks c k ⟨some 0, j⟩ =
      (ks.get? j).map (fun kk => Term.var kk ⟨none, c + j⟩) := by
    show slookup (openSubstList ks 0 c) ⟨some 0, j⟩ = _
    rw [slookup_openSubstList_bound0]
    simp
  simp only [FuseAt]
  rw [hf]
  cases hg : ks.get? j with
  | none =>
    show newFnOfOpen ks c k ⟨some 0, j⟩ = none
    exact slookup_newSubstList_bound (openVarKinds ks c) 0 0 j
  | some kk =>
    show Term.substitute (newFnOfOpen ks c) (Term.var kk ⟨none, c + j⟩) =
      Term.var k ⟨some 0, j⟩
    have hgj : newFnOfOpen ks c kk ⟨none, c + j⟩ = some (Term.var kk ⟨some 0, j⟩) := by
      show slookup (newSubstList (openVarKinds ks c) 0) ⟨none, c + j⟩ = _
      rw [slookup_newSubstList_free, firstMatch_openVarKinds]
      have h1 : c ≤ c + j := by omega
      have h2 : c + j - c = j := by omega
      rw [if_pos h1, h2, hg]
      simp
    simp only [Term.substitute]
    rw [hgj, hkj kk hg]
    rfl

theorem openNew_fuseCond (ks : List ParameterKind) (c : Nat) :
    ∀ (l : Nat) (k : ParameterKind) (v : Variable),
      freeBelowB c l k v = true ∧ kindCoherentB ks l k v = true →
      FuseCond (openFn ks c) (newFnOfOpen ks c) (fun _ _ => none) l k v := by
  intro l k v hv w hw
  obtain ⟨hfree, hkind⟩ := hv
  cases v with
  | mk dv j =>
    cases dv with
    | none =>
      rw [shiftOutIterV_free] at hw
      cases hw
      have hj : j < c := by simpa [freeBelowB] using hfree
      exact openNew_fuseAt_free ks c k j hj
    | some d =>
      rw [shiftOutIterV_bound] at hw
      by_cases hdl : d < l
      · rw [if_pos hdl] at hw
        cases hw
      · rw [if_neg hdl] at hw
        cases hw
        by_cases hde : d = l
        · have h0 : d - l = 0 := by omega
          rw [h0]
          refine openNew_fuseAt_bound0 ks c k j ?_
          intro kk hkk
          have hkind2 := hkind
          simp only [kindCoherentB, if_pos hde, hkk] at hkind2
          exact of_decide_eq_true hkind2
        · have he : ∃ e, d - l = e + 1 := ⟨d - l - 1, by omega⟩
          obtain ⟨e, hee⟩ := he
          rw [hee]
          exact openNew_fuseAt_boundS ks c k e j

/-- C1.  Round-trip: opening a binder (at any counter value `c` above every
free identifier in the payload, with the payload kind-coherent) and closing
the result with the returned handle list reproduces the binder exactly. -/
theorem open_then_new_roundtrip (ks : List ParameterKind) (t : Term) (c : Nat)
    (hfree : lvlOkB (freeBelowB c) 0 t = true)
    (hkind : lvlOkB (kindCoherentB ks) 0 t = true) :
    Binder.new ((Binder.mk ks t).openB c).1.1 ((Binder.mk ks t).openB c).1.2 =
      Binder.mk ks t := by
  have hkinds : (openVarKinds ks c).map (·.kind) = ks := openVarKinds_map_kind ks c
  have hA : LvlOk (fun l k v => freeBelowB c l k v = true) 0 t :=
    lvlOk_of_B _ _ (fun _ _ _ hh => hh) t 0 hfree
  have hB : LvlOk (fun l k v => kindCoherentB ks l k v = true) 0 t :=
    lvlOk_of_B _ _ (fun _ _ _ hh => hh) t 0 hkind
  have hAB := lvlOk_conj _ _ t 0 hA hB
  have hC : LvlOk (FuseCond (openFn ks c) (newFnOfOpen ks c) (fun _ _ => none)) 0 t :=
    lvlOk_imp _ _ (openNew_fuseCond ks c) t 0 hAB
  have hterm : Term.substitute (newFnOfOpen ks c) (Term.substitute (openFn ks c) t) = t := by
    rw [substitute_fuse (openFn ks c) (newFnOfOpen ks c) (fun _ _ => none) t hC]
    exact substitute_none_fn t
  show Binder.mk ((openVarKinds ks c).map (·.kind))
      (Term.substitute (newFnOfOpen ks c) (Term.substitute (openFn ks c) t)) =
    Binder.mk ks t
  rw [hkinds, hterm]

/-- Witness for C1 at a concrete binder: signature `[ty, lt]`, payload
referencing both positions, counter value 3. -/
theorem open_then_new_roundtrip_witness :
    (lvlOkB (freeBelowB 3) 0
        (Term.app (Term.var .ty ⟨some 0, 0⟩) (Term.var .lt ⟨some 0, 1⟩)) = true) ∧
    (lvlOkB (kindCoherentB [ParameterKind.ty, ParameterKind.lt]) 0
        (Term.app (Term.var .ty ⟨some 0, 0⟩) (Term.var .lt ⟨some 0, 1⟩)) = true) ∧
    Binder.new
        ((Binder.mk [ParameterKind.ty, ParameterKind.lt]
            (Term.app (Term.var .ty ⟨some 0, 0⟩) (Term.var .lt ⟨some 0, 1⟩))).openB 3).1.1
        ((Binder.mk [ParameterKind.ty, ParameterKind.lt]
            (Term.app (Term.var .ty ⟨some 0, 0⟩) (Term.var .lt ⟨some 0, 1⟩))).openB 3).1.2 =
      Binder.mk [ParameterKind.ty, ParameterKind.lt]
        (Term.app (Term.var .ty ⟨some 0, 0⟩) (Term.var .lt ⟨some 0, 1⟩)) :=
  ⟨by decide, by decide,
    open_then_new_roundtrip [ParameterKind.ty, ParameterKind.lt]
      (Term.app (Term.var .ty ⟨some 0, 0⟩) (Term.var .lt ⟨some 0, 1⟩)) 3
      (by decide) (by decide)⟩

/-! Claim C2: substitution locality. -/

/-- Marker strictly below the level: the occurrence is bound by the binder
under consideration or by a binder nested inside it. -/
def boundWithinB : Nat → ParameterKind → Variable → Bool := fun l _ v =>
  match v.debruijn with
  | some d => decide (d < l)
  | none => false

/-- C2.  Substitution locality, for every binder and every callback.
First conjunct: binder substitution is exactly one traversal of the payload
with the three-step wrapped callback (`wrapSubst`: try `shift_out`; on
failure leave the variable untouched; on success apply the callback and
shift any replacement in), with the signature untouched.  Second conjunct:
at every nesting level inside the payload (level `l + 1` means the
occurrence sits under `l` nested binders, so the effective callback is
`wrapIter (l + 1) f`), every variable owned by this binder or one of its
inner binders — one whose shift-out chain fails — is given no replacement
and is left syntactically unchanged by the traversal.  Third conjunct: a
variable free relative to the binder (shift-out chain succeeds, yielding
`w`) is rewritten exactly by the three-step result `(f k w)` shifted back
in, so only free-relative variables can ever change.  Fourth conjunct: in
particular, a binder whose payload has all its variables locally bound is
a fixpoint of substitution for every callback. -/
theorem binder_substitute_locality (f : SubstitutionFn) (b : Binder Term) :
    b.substitute f = ⟨b.kinds, Term.substitute (wrapSubst f) b.term⟩ ∧
    (∀ (l : Nat) (k : ParameterKind) (v : Variable),
      shiftOutIterV (l + 1) v = none →
        wrapIter (l + 1) f k v = none ∧
        Term.substitute (wrapIter (l + 1) f) (Term.var k v) = Term.var k v) ∧
    (∀ (l : Nat) (k : ParameterKind) (v w : Variable),
      shiftOutIterV (l + 1) v = some w →
        wrapIter (l + 1) f k v = (f k w).map (shiftInIterT (l + 1))) ∧
    (lvlOkB boundWithinB 1 b.term = true → b.substitute f = b) := by
  refine ⟨rfl, ?_, ?_, ?_⟩
  · intro l k v hv
    have h1 : wrapIter (l + 1) f k v = none := by
      rw [wrapIter_eval, hv]
      rfl
    exact ⟨h1, by simp [Term.substitute, h1]⟩
  · intro l k v w hw
    rw [wrapIter_eval, hw]
    rfl
  · intro hb
    have hA : LvlOk (fun l k v => boundWithinB l k v = true) 1 b.term :=
      lvlOk_of_B _ _ (fun _ _ _ hh => hh) b.term 1 hb
    have hN : LvlOk (fun l k v => wrapIter l f k v = none) 1 b.term := by
      refine lvlOk_imp _ _ ?_ b.term 1 hA
      intro l k v hv
      cases v with
      | mk dv j =>
        cases dv with
        | none => simp [boundWithinB] at hv
        | some d =>
          have hd : d < l := by simpa [boundWithinB] using hv
          rw [wrapIter_eval, shiftOutIterV_bound, if_pos hd]
          rfl
    have hsub := substitute_eq_self_aux f b.term 1 hN
    show Binder.mk b.kinds (Term.substitute (wrapSubst f) b.term) = b
    rw [show Term.substitute (wrapSubst f) b.term = b.term from hsub]

/-- Witness for C2, at a binder whose payload mixes a variable bound by
the binder itself with a free one and a callback that rewrites every free
variable it is handed: the bound occurrence is untouched at level one, the
free occurrence is rewritten by the shifted callback result, and the
closed-payload fixpoint instance also discharges concretely. -/
theorem binder_substitute_locality_witness :
    (shiftOutIterV 1 ⟨some 0, 0⟩ = none) ∧
    (wrapIter 1 (fun _ _ => some (Term.var .ty ⟨none, 42⟩)) .ty ⟨some 0, 0⟩ = none ∧
      Term.substitute (wrapIter 1 (fun _ _ => some (Term.var .ty ⟨none, 42⟩)))
        (Term.var .ty ⟨some 0, 0⟩) = Term.var .ty ⟨some 0, 0⟩) ∧
    (shiftOutIterV 1 ⟨none, 8⟩ = some ⟨none, 8⟩) ∧
    (wrapIter 1 (fun _ _ => some (Term.var .ty ⟨none, 42⟩)) .ty ⟨none, 8⟩ =
      ((fun (_ : ParameterKind) (_ : Variable) => some (Term.var .ty ⟨none, 42⟩)) .ty
        ⟨none, 8⟩).map (shiftInIterT 1)) ∧
    (lvlOkB boundWithinB 1
      (Term.app (Term.var .ty ⟨some 0, 0⟩) (Term.var .ty ⟨some 0, 0⟩)) = true) ∧
    Binder.substitute
        ⟨[ParameterKind.ty], Term.app (Term.var .ty ⟨some 0, 0⟩) (Term.var .ty ⟨some 0, 0⟩)⟩
        (fun _ _ => some (Term.var .ty ⟨none, 42⟩)) =
      ⟨[ParameterKind.ty], Term.app (Term.var .ty ⟨some 0, 0⟩) (Term.var .ty ⟨some 0, 0⟩)⟩ :=
  ⟨by decide,
    (binder_substitute_locality (fun _ _ => some (Term.var .ty ⟨none, 42⟩))
        ⟨[ParameterKind.ty], Term.var .ty ⟨some 0, 0⟩⟩).2.1 0 .ty ⟨some 0, 0⟩ (by decide),
    by decide,
    (binder_substitute_locality (fun _ _ => some (Term.var .ty ⟨none, 42⟩))
        ⟨[ParameterKind.ty], Term.var .ty ⟨some 0, 0⟩⟩).2.2.1 0 .ty ⟨none, 8⟩ ⟨none, 8⟩
      (by decide),
    by decide,
    (binder_substitute_locality (fun _ _ => some (Term.var .ty ⟨none, 42⟩))
        ⟨[ParameterKind.ty],
          Term.app (Term.var .ty ⟨some 0, 0⟩) (Term.var .ty ⟨some 0, 0⟩)⟩).2.2.2
      (by decide)⟩

/-! Claim C4: freshness across any sequence of open calls. -/

theorem range'_append_split (m : Nat) :
    ∀ (s n : Nat), List.range' s m ++ List.range' (s + m) n = List.range' s (m + n) := by
  induction m with
  | zero => intro s n; simp [List.range']
  | succ e ih =>
    intro s n
    have h1 : List.range' s (e + 1) = s :: List.range' (s + 1) e := rfl
    have hh : e + 1 + n = (e + n) + 1 := by omega
    have h2 : List.range' s ((e + n) + 1) = s :: List.range' (s + 1) (e + n) := rfl
    have h3 : s + (e + 1) = s + 1 + e := by omega
    rw [h1, hh, h2, List.cons_append, h3, ih (s + 1) n]

theorem allOpenedIndices_eq (bs : List (Binder Term)) :
    ∀ c, allOpenedIndices bs c =
      List.range' c ((bs.map (fun b => b.kinds.length)).sum) := by
  induction bs with
  | nil => intro c; rfl
  | cons b bs ih =>
    intro c
    show ((openVarKinds b.kinds c :: (opensSeq bs (c + b.kinds.length)).1).flatten).map
        (·.var_index) = _
    rw [List.flatten_cons, List.map_append, openVarKinds_map_index]
    have hrest : ((opensSeq bs (c + b.kinds.length)).1.flatten).map (·.var_index) =
        List.range' (c + b.kinds.length) ((bs.map (fun b => b.kinds.length)).sum) :=
      ih (c + b.kinds.length)
    rw [hrest, List.map_cons, List.sum_cons]
    exact range'_append_split b.kinds.length c _

/-- C4.  Freshness: across any sequence of `open` calls, on any binders,
starting from any counter value, all returned free identifiers are pairwise
distinct — the counter is threaded through every call, never reset, and
each minted identifier consumes one counter value. -/
theorem open_freshness (bs : List (Binder Term)) (c : Nat) :
    (allOpenedIndices bs c).Pairwise (· ≠ ·) := by
  rw [allOpenedIndices_eq]
  exact List.nodup_range' _ _

/-! Claim C6: shift inverse. -/

theorem shiftOut_shiftIn_term : ∀ t : Term, t.shiftIn.shiftOut = some t := by
  intro t
  induction t with
  | var k v => simp [Term.shiftIn, Term.shiftOut, Variable.shiftOut_shiftIn]
  | app a b iha ihb => simp [Term.shiftIn, Term.shiftOut, iha, ihb]
  | bind ks t ih => simp [Term.shiftIn, Term.shiftOut, ih]

/-- Marker different from the level: the occurrence is not an
outer-context depth-innermost reference. -/
def noOuterInnermostB : Nat → ParameterKind → Variable → Bool := fun l _ v =>
  match v.debruijn with
  | some d => decide (d ≠ l)
  | none => true

/-- C6.  Shift inverse: for a term with no outer-context depth-innermost
reference, shifting in and then out is the identity; and `shift_out` on a
depth-innermost variable yields no result. -/
theorem shift_out_shift_in_inverse (t : Term)
    (_ht : lvlOkB noOuterInnermostB 0 t = true) :
    Term.shiftOut (Term.shiftIn t) = some t ∧
    ∀ (k : ParameterKind) (i : Nat), Term.shiftOut (Term.var k ⟨some 0, i⟩) = none := by
  refine ⟨shiftOut_shiftIn_term t, ?_⟩
  intro k i
  rfl

/-- Witness for C6 at a term referencing the outer context at depth 1 and
a free variable. -/
theorem shift_out_shift_in_inverse_witness :
    (lvlOkB noOuterInnermostB 0
        (Term.app (Term.var .ty ⟨some 1, 0⟩) (Term.var .lt ⟨none, 7⟩)) = true) ∧
    Term.shiftOut (Term.shiftIn
        (Term.app (Term.var .ty ⟨some 1, 0⟩) (Term.var .lt ⟨none, 7⟩))) =
      some (Term.app (Term.var .ty ⟨some 1, 0⟩) (Term.var .lt ⟨none, 7⟩)) ∧
    Term.shiftOut (Term.var .ty ⟨some 0, 3⟩) = none := by
  have hr := shift_out_shift_in_inverse
    (Term.app (Term.var .ty ⟨some 1, 0⟩) (Term.var .lt ⟨none, 7⟩)) (by decide)
  exact ⟨by decide, hr.1, hr.2 .ty 3⟩

/-! Claim C7: error containment. -/

/-- C7.  The sole partial operation is `shift_out`; its failure on a
depth-innermost variable is consumed inside binder substitution: the
wrapped callback yields no replacement, the variable is left untouched, and
the binder substitution returns normally, so the failure never surfaces to
the caller. -/
theorem shiftOut_failure_contained (f : SubstitutionFn) (ks : List ParameterKind)
    (k : ParameterKind) (v : Variable) (hv : v.shiftOut = none) :
    wrapSubst f k v = none ∧
    Term.substitute (wrapSubst f) (Term.var k v) = Term.var k v ∧
    Binder.substitute ⟨ks, Term.var k v⟩ f = ⟨ks, Term.var k v⟩ := by
  have h1 : wrapSubst f k v = none := by
    rw [wrapSubst, hv]
  refine ⟨h1, ?_, ?_⟩
  · simp [Term.substitute, h1]
  · show Binder.mk ks (Term.substitute (wrapSubst f) (Term.var k v)) =
      Binder.mk ks (Term.var k v)
    simp [Term.substitute, h1]

/-- Witness for C7 at a depth-innermost variable and a callback that would
replace anything it is handed. -/
theorem shiftOut_failure_contained_witness :
    (Variable.shiftOut ⟨some 0, 5⟩ = none) ∧
    wrapSubst (fun _ _ => some (Term.var .ty ⟨none, 9⟩)) .ty ⟨some 0, 5⟩ = none ∧
    Term.substitute (wrapSubst (fun _ _ => some (Term.var .ty ⟨none, 9⟩)))
        (Term.var .ty ⟨some 0, 5⟩) = Term.var .ty ⟨some 0, 5⟩ ∧
    Binder.substitute ⟨[ParameterKind.ty], Term.var .ty ⟨some 0, 5⟩⟩
        (fun _ _ => some (Term.var .ty ⟨none, 9⟩)) =
      ⟨[ParameterKind.ty], Term.var .ty ⟨some 0, 5⟩⟩ := by
  have hr := shiftOut_failure_contained (fun _ _ => some (Term.var .ty ⟨none, 9⟩))
    [ParameterKind.ty] .ty ⟨some 0, 5⟩ (by decide)
  exact ⟨by decide, hr.1, hr.2.1, hr.2.2⟩

/-! Claim C8: the signature frame. -/

/-- C8.  Signature frame: binder substitution, binder shift-in, and the
coercion to a broader term representation all preserve the kinds signature
exactly; the coercion transforms the payload by the embedding alone, so it
neither reallocates nor renumbers variables. -/
theorem binder_signature_frame {α β : Type} (f : SubstitutionFn) (b : Binder Term)
    (emb : α → β) (b2 : Binder α) :
    (b.substitute f).kinds = b.kinds ∧
    b.shiftIn.kinds = b.kinds ∧
    (Binder.upcastFrom emb b2).kinds = b2.kinds ∧
    (Binder.upcastFrom emb b2).term = emb b2.term :=
  ⟨rfl, rfl, rfl, rfl⟩

/-! Claims C5, C9, C10: instantiate. -/

/-- Every reference owned by the outer binder (depth marker equal to the
occurrence level) has position below the binder arity `n` (the
representation invariant of spec section 3). -/
def inRangeB (n : Nat) : Nat → ParameterKind → Variable → Bool := fun l _ v =>
  match v.debruijn with
  | some d => if d = l then decide (v.var_index < n) else true
  | none => true

theorem instTableS_unit_get (ks : List ParameterKind) (op : ParameterKind → Nat → Term) :
    ∀ (i p : Nat),
      ((instTableS ks (fun (s : Unit) k x => (op k x, s)) i ()).1).get? p =
        (ks.get? p).map (fun kk => op kk (i + p)) := by
  induction ks with
  | nil => intro i p; rfl
  | cons k rest ih =>
    intro i p
    cases p with
    | zero => simp [instTableS]
    | succ q =>
      have h1 : ((instTableS (k :: rest) (fun (s : Unit) k x => (op k x, s)) i ()).1).get? (q + 1) =
          ((instTableS rest (fun (s : Unit) k x => (op k x, s)) (i + 1) ()).1).get? q := rfl
      have h2 : (k :: rest).get? (q + 1) = rest.get? q := rfl
      rw [h1, h2, ih (i + 1) q]
      have h3 : i + 1 + q = i + (q + 1) := by omega
      rw [h3]

theorem instantiate_noPanic (b : Binder Term) (op : ParameterKind → Nat → Term)
    (hb : lvlOkB (inRangeB b.kinds.length) 0 b.term = true) :
    LvlOk (NoPanicCond
      (instFnOf ((instTableS b.kinds (fun (s : Unit) k x => (op k x, s)) 0 ()).1))) 0 b.term := by
  have hA : LvlOk (fun l k v => inRangeB b.kinds.length l k v = true) 0 b.term :=
    lvlOk_of_B _ _ (fun _ _ _ hh => hh) b.term 0 hb
  refine lvlOk_imp _ _ ?_ b.term 0 hA
  intro l k v hv w hw
  cases v with
  | mk dv j =>
    cases dv with
    | none =>
      rw [shiftOutIterV_free] at hw
      cases hw
      rfl
    | some d =>
      rw [shiftOutIterV_bound] at hw
      by_cases hdl : d < l
      · rw [if_pos hdl] at hw
        cases hw
      · rw [if_neg hdl] at hw
        cases hw
        by_cases hde : d = l
        · have h0 : d - l = 0 := by omega
          rw [h0]
          have hj : j < b.kinds.length := by
            have hv2 := hv
            simp only [inRangeB, if_pos hde] at hv2
            exact of_decide_eq_true hv2
          have hfn : instFnOf ((instTableS b.kinds (fun (s : Unit) k x => (op k x, s)) 0 ()).1)
              k ⟨some 0, j⟩ =
              ((((instTableS b.kinds (fun (s : Unit) k x => (op k x, s)) 0 ()).1).get?
                j)).map some := rfl
          show (instFnOf ((instTableS b.kinds (fun (s : Unit) k x => (op k x, s)) 0 ()).1)
            k ⟨some 0, j⟩).isSome = true
          rw [hfn, instTableS_unit_get b.kinds op 0 j]
          cases hg : b.kinds.get? j with
          | none =>
            rw [List.get?_eq_getElem?, List.getElem?_eq_none_iff] at hg
            omega
          | some kk => rfl
        · have he : d - l = (d - l - 1) + 1 := by omega
          rw [he]
          rfl

/-- Shared characterization of `Binder::instantiate` under the
representation invariant: the call returns (no panic), and the result is
the payload with each depth-innermost reference at position `i` replaced
by `op kinds[i] i`. -/
theorem instantiate_eq (b : Binder Term) (op : ParameterKind → Nat → Term)
    (hb : lvlOkB (inRangeB b.kinds.length) 0 b.term = true) :
    b.instantiate op = some (Term.substitute
      (fun _ v => match v.debruijn with
        | some 0 => (b.kinds.get? v.var_index).map (fun kk => op kk v.var_index)
        | _ => none) b.term) := by
  have hPanic := instantiate_noPanic b op hb
  have heq := substO_eq_substitute _ b.term hPanic
  show Term.substO (instFnOf ((instTableS b.kinds (fun (s : Unit) k x => (op k x, s)) 0 ()).1))
    b.term = _
  rw [heq]
  refine congrArg some (substitute_congr b.term _ _ ?_)
  intro k v
  cases v with
  | mk dv j =>
    cases dv with
    | none => rfl
    | some d =>
      cases d with
      | zero =>
        show ((((instTableS b.kinds (fun (s : Unit) k x => (op k x, s)) 0 ()).1).get? j).map
          some).getD none = _
        rw [instTableS_unit_get b.kinds op 0 j]
        cases hg : b.kinds.get? j <;> simp
      | succ e => rfl

/-- C5.  Instantiate semantics: under the representation invariant,
`instantiate` returns the payload in which every bound reference at depth
innermost and position `i` within the arity is replaced by `op` applied to
the i-th signature kind and `i`; the call threads no fresh-identifier
counter and returns no handle list. -/
theorem instantiate_semantics (b : Binder Term) (op : ParameterKind → Nat → Term)
    (hb : lvlOkB (inRangeB b.kinds.length) 0 b.term = true) :
    b.instantiate op = some (Term.substitute
      (fun _ v => match v.debruijn with
        | some 0 => (b.kinds.get? v.var_index).map (fun kk => op kk v.var_index)
        | _ => none) b.term) :=
  instantiate_eq b op hb

/-- Witness for C5: a two-position binder instantiated with distinct
replacement terms. -/
theorem instantiate_semantics_witness :
    (lvlOkB (inRangeB 2) 0
        (Term.app (Term.var .ty ⟨some 0, 0⟩) (Term.var .ty ⟨some 0, 1⟩)) = true) ∧
    (Binder.mk [ParameterKind.ty, ParameterKind.ty]
        (Term.app (Term.var .ty ⟨some 0, 0⟩) (Term.var .ty ⟨some 0, 1⟩))).instantiate
        (fun kk i => Term.var kk ⟨none, 100 + i⟩) =
      some (Term.substitute
        (fun _ v => match v.debruijn with
          | some 0 =>
            (([ParameterKind.ty, ParameterKind.ty]).get? v.var_index).map
              (fun kk => Term.var kk ⟨none, 100 + v.var_index⟩)
          | _ => none)
        (Term.app (Term.var .ty ⟨some 0, 0⟩) (Term.var .ty ⟨some 0, 1⟩))) :=
  ⟨by decide,
    instantiate_semantics
      (Binder.mk [ParameterKind.ty, ParameterKind.ty]
        (Term.app (Term.var .ty ⟨some 0, 0⟩) (Term.var .ty ⟨some 0, 1⟩)))
      (fun kk i => Term.var kk ⟨none, 100 + i⟩) (by decide)⟩

/-- C9.  Safety: under the representation invariant (every depth-innermost
reference has position below the arity), `instantiate` never reaches an
out-of-bounds index in its replacement table — the modelled panic outcome
does not occur. -/
theorem instantiate_no_out_of_bounds (b : Binder Term) (op : ParameterKind → Nat → Term)
    (hb : lvlOkB (inRangeB b.kinds.length) 0 b.term = true) :
    (b.instantiate op).isSome = true := by
  rw [instantiate_eq b op hb]
  rfl

/-- Witness for C9: the invariant holds on a nested-binder payload and
instantiate returns a value. -/
theorem instantiate_no_out_of_bounds_witness :
    (lvlOkB (inRangeB 1) 0
        (Term.bind [ParameterKind.lt] (Term.var .ty ⟨some 1, 0⟩)) = true) ∧
    ((Binder.mk [ParameterKind.ty]
        (Term.bind [ParameterKind.lt] (Term.var .ty ⟨some 1, 0⟩))).instantiate
        (fun kk i => Term.var kk ⟨none, 50 + i⟩)).isSome = true :=
  ⟨by decide,
    instantiate_no_out_of_bounds
      (Binder.mk [ParameterKind.ty]
        (Term.bind [ParameterKind.lt] (Term.var .ty ⟨some 1, 0⟩)))
      (fun kk i => Term.var kk ⟨none, 50 + i⟩) (by decide)⟩

theorem instTableS_trace (op : ParameterKind → Nat → Term) (ks : List ParameterKind) :
    ∀ (i : Nat) (s : List (ParameterKind × Nat)),
      (instTableS ks (fun s k x => (op k x, s ++ [(k, x)])) i s).2 =
        s ++ ks.zip (List.range' i ks.length) := by
  induction ks with
  | nil => intro i s; simp [instTableS]
  | cons k rest ih =>
    intro i s
    show (instTableS rest (fun s k x => (op k x, s ++ [(k, x)])) (i + 1) (s ++ [(k, i)])).2 = _
    rw [ih (i + 1) (s ++ [(k, i)])]
    have hr : List.range' i (rest.length + 1) = i :: List.range' (i + 1) rest.length := rfl
    rw [List.length_cons, hr]
    simp

theorem instTableS_trace_fst (op : ParameterKind → Nat → Term) (ks : List ParameterKind) :
    ∀ (i : Nat) (s : List (ParameterKind × Nat)),
      (instTableS ks (fun s k x => (op k x, s ++ [(k, x)])) i s).1 =
        (instTableS ks (fun (u : Unit) k x => (op k x, u)) i ()).1 := by
  induction ks with
  | nil => intro i s; rfl
  | cons k rest ih =>
    intro i s
    show op k i :: (instTableS rest (fun s k x => (op k x, s ++ [(k, x)])) (i + 1)
        (s ++ [(k, i)])).1 = op k i :: (instTableS rest (fun (u : Unit) k x => (op k x, u))
        (i + 1) ()).1
    rw [ih (i + 1) (s ++ [(k, i)])]

/-- C10.  Operator call order: running `instantiate` with a recording
operator shows `op` is invoked exactly once per signature position, with
the matching kind, in increasing position order `0, 1, ..., n-1` —
regardless of which positions occur in the payload — and the term result
is the same as with the pure operator. -/
theorem instantiate_op_call_order (b : Binder Term) (op : ParameterKind → Nat → Term) :
    ((b.instantiateS (fun s k i => (op k i, s ++ [(k, i)])) []).2).map Prod.fst = b.kinds ∧
    ((b.instantiateS (fun s k i => (op k i, s ++ [(k, i)])) []).2).map Prod.snd =
      List.range b.kinds.length ∧
    (b.instantiateS (fun s k i => (op k i, s ++ [(k, i)])) []).1 = b.instantiate op := by
  have htr : (b.instantiateS (fun s k i => (op k i, s ++ [(k, i)])) []).2 =
      b.kinds.zip (List.range' 0 b.kinds.length) := by
    show (instTableS b.kinds (fun s k x => (op k x, s ++ [(k, x)])) 0 []).2 = _
    rw [instTableS_trace op b.kinds 0 []]
    rfl
  refine ⟨?_, ?_, ?_⟩
  · rw [htr]
    exact List.map_fst_zip _ _ (by rw [List.length_range'])
  · rw [htr, List.range_eq_range']
    exact List.map_snd_zip _ _ (by rw [List.length_range'])
  · show Term.substO (instFnOf
        ((instTableS b.kinds (fun s k x => (op k x, s ++ [(k, x)])) 0 []).1)) b.term = _
    rw [instTableS_trace_fst op b.kinds 0 []]
    rfl

/-! Claim C3: alpha-equivalence by construction. -/

/-- Modelled from the spec (section 8, "Alpha-equivalence"): the
substitution renaming each listed free variable `v1[i]` to `v2[i]`,
expressing the spec's `T[v1 ↦ v2]` as a single `Substitution.apply`. -/
def renameSubstList : List KindedVarIndex → List KindedVarIndex → Substitution
  | x :: xs, y :: ys =>
    (⟨none, x.var_index⟩, Term.var x.kind ⟨none, y.var_index⟩) :: renameSubstList xs ys
  | _, _ => []

/-- First matching position of a free identifier, with the entries of both
parallel lists at that position. -/
def firstMatch2 : List KindedVarIndex → List KindedVarIndex → Nat →
    Option (Nat × KindedVarIndex × KindedVarIndex)
  | x :: xs, y :: ys, j =>
    if x.var_index = j then some (0, x, y)
    else (firstMatch2 xs ys j).map (fun r => (r.1 + 1, r.2.1, r.2.2))
  | _, _, _ => none

theorem slookup_renameSubstList_free : ∀ (v1 v2 : List KindedVarIndex) (j : Nat),
    slookup (renameSubstList v1 v2) ⟨none, j⟩ =
      (firstMatch2 v1 v2 j).map (fun r => Term.var r.2.1.kind ⟨none, r.2.2.var_index⟩) := by
  intro v1
  induction v1 with
  | nil => intro v2 j; rfl
  | cons x xs ih =>
    intro v2 j
    cases v2 with
    | nil => rfl
    | cons y ys =>
      simp only [renameSubstList, slookup, firstMatch2]
      by_cases hx : x.var_index = j
      · subst hx
        simp
      · have hne : (⟨none, x.var_index⟩ : Variable) ≠ ⟨none, j⟩ := by
          intro hcon
          exact hx (congrArg Variable.var_index hcon)
        rw [if_neg hne, if_neg hx, ih ys j]
        cases hfm : firstMatch2 xs ys j <;> simp

theorem slookup_renameSubstList_bound : ∀ (v1 v2 : List KindedVarIndex) (d j : Nat),
    slookup (renameSubstList v1 v2) ⟨some d, j⟩ = none := by
  intro v1
  induction v1 with
  | nil => intro v2 d j; rfl
  | cons x xs ih =>
    intro v2 d j
    cases v2 with
    | nil => rfl
    | cons y ys =>
      simp only [renameSubstList, slookup]
      have hne : (⟨none, x.var_index⟩ : Variable) ≠ ⟨some d, j⟩ := by
        intro hcon
        cases congrArg Variable.debruijn hcon
      rw [if_neg hne]
      exact ih ys d j

theorem firstMatch2_get : ∀ (v1 v2 : List KindedVarIndex) (j p : Nat)
    (x y : KindedVarIndex), firstMatch2 v1 v2 j = some (p, x, y) →
    v1.get? p = some x ∧ v2.get? p = some y ∧ x.var_index = j := by
  intro v1
  induction v1 with
  | nil => intro v2 j p x y hfm; cases hfm
  | cons x1 xs ih =>
    intro v2 j p x y hfm
    cases v2 with
    | nil => cases hfm
    | cons y1 ys =>
      simp only [firstMatch2] at hfm
      by_cases hx : x1.var_index = j
      · rw [if_pos hx] at hfm
        cases hfm
        exact ⟨rfl, rfl, hx⟩
      · rw [if_neg hx] at hfm
        cases hfm2 : firstMatch2 xs ys j with
        | none => rw [hfm2] at hfm; cases hfm
        | some r =>
          rw [hfm2] at hfm
          simp only [Option.map_some', Option.some.injEq, Prod.mk.injEq] at hfm
          obtain ⟨hp, ha, hb⟩ := hfm
          subst hp
          subst ha
          subst hb
          have hrec := ih ys j r.1 r.2.1 r.2.2 hfm2
          exact ⟨hrec.1, hrec.2.1, hrec.2.2⟩

theorem firstMatch2_fst : ∀ (v1 v2 : List KindedVarIndex) (j p : Nat)
    (x y : KindedVarIndex), firstMatch2 v1 v2 j = some (p, x, y) →
    firstMatch v1 j = some (p, x) := by
  intro v1
  induction v1 with
  | nil => intro v2 j p x y hfm; cases hfm
  | cons x1 xs ih =>
    intro v2 j p x y hfm
    cases v2 with
    | nil => cases hfm
    | cons y1 ys =>
      simp only [firstMatch2] at hfm
      simp only [firstMatch]
      by_cases hx : x1.var_index = j
      · rw [if_pos hx] at hfm
        rw [if_pos hx]
        cases hfm
        rfl
      · rw [if_neg hx] at hfm
        rw [if_neg hx]
        cases hfm2 : firstMatch2 xs ys j with
        | none => rw [hfm2] at hfm; cases hfm
        | some r =>
          rw [hfm2] at hfm
          simp only [Option.map_some', Option.some.injEq, Prod.mk.injEq] at hfm
          obtain ⟨hp, ha, hb⟩ := hfm
          subst hp
          subst ha
          rw [ih ys j r.1 r.2.1 r.2.2 hfm2]
          rfl

theorem firstMatch2_isSome : ∀ (v1 v2 : List KindedVarIndex) (j : Nat),
    v1.length = v2.length → j ∈ v1.map (·.var_index) →
    (firstMatch2 v1 v2 j).isSome = true := by
  intro v1
  induction v1 with
  | nil => intro v2 j hlen hmem; cases hmem
  | cons x xs ih =>
    intro v2 j hlen hmem
    cases v2 with
    | nil => cases hlen
    | cons y ys =>
      simp only [firstMatch2]
      by_cases hx : x.var_index = j
      · rw [if_pos hx]
        rfl
      · rw [if_neg hx]
        have hmem2 : j ∈ xs.map (·.var_index) := by
          rcases List.mem_cons.mp hmem with hcase | hcase
          · exact absurd hcase.symm hx
          · exact hcase
        have hlen2 : xs.length = ys.length := by
          simpa using hlen
        have := ih ys j hlen2 hmem2
        cases hfm : firstMatch2 xs ys j with
        | none => rw [hfm] at this; cases this
        | some r => rfl

theorem mem_of_lget (y : KindedVarIndex) :
    ∀ (xs : List KindedVarIndex) (q : Nat), xs.get? q = some y → y ∈ xs := by
  intro xs
  induction xs with
  | nil => intro q hget; cases hget
  | cons a as ih =>
    intro q hget
    cases q with
    | zero =>
      cases hget
      exact List.mem_cons_self _ _
    | succ q2 => exact List.mem_cons_of_mem a (ih q2 hget)

theorem firstMatch_nodup_get : ∀ (vs : List KindedVarIndex) (p : Nat)
    (y : KindedVarIndex), (vs.map (·.var_index)).Nodup → vs.get? p = some y →
    firstMatch vs y.var_index = some (p, y) := by
  intro vs
  induction vs with
  | nil => intro p y hnd hget; cases hget
  | cons x xs ih =>
    intro p y hnd hget
    have hnd2 : x.var_index ∉ xs.map (·.var_index) ∧ (xs.map (·.var_index)).Nodup :=
      List.nodup_cons.mp hnd
    cases p with
    | zero =>
      cases hget
      simp [firstMatch]
    | succ q =>
      have hget2 : xs.get? q = some y := hget
      have hymem : y ∈ xs := mem_of_lget y xs q hget2
      have hne : x.var_index ≠ y.var_index := by
        intro hcon
        exact hnd2.1 (hcon ▸ List.mem_map_of_mem (·.var_index) hymem)
      simp only [firstMatch, if_neg hne]
      rw [ih q y hnd2.2 hget2]
      rfl

theorem map_kind_get (v1 v2 : List KindedVarIndex) (p : Nat) (x y : KindedVarIndex)
    (hk : v1.map (·.kind) = v2.map (·.kind))
    (hg1 : v1.get? p = some x) (hg2 : v2.get? p = some y) : x.kind = y.kind := by
  have h1 : (v1.map (·.kind)).get? p = some x.kind := by
    rw [List.get?_map, hg1]
    rfl
  have h2 : (v2.map (·.kind)).get? p = some y.kind := by
    rw [List.get?_map, hg2]
    rfl
  rw [hk, h2] at h1
  exact (Option.some.inj h1).symm

/-- Every free variable occurring in the term is one of the listed
identifiers (spec: "a term referencing v1 freely"). -/
def freeOnlyB (s : List Nat) : Nat → ParameterKind → Variable → Bool := fun _ _ v =>
  match v.debruijn with
  | none => decide (v.var_index ∈ s)
  | some _ => true

/-- The renaming callback. -/
def renameFn (v1 v2 : List KindedVarIndex) : SubstitutionFn := fun _ v =>
  slookup (renameSubstList v1 v2) v

/-- The callback applied by `Binder::new` for a variable list. -/
def newFn (vs : List KindedVarIndex) : SubstitutionFn := fun _ v =>
  slookup (newSubstList vs 0) v

theorem renameNew_fuseCond (v1 v2 : List KindedVarIndex)
    (hk : v1.map (·.kind) = v2.map (·.kind))
    (hnd2 : (v2.map (·.var_index)).Nodup) :
    ∀ (l : Nat) (k : ParameterKind) (v : Variable),
      freeOnlyB (v1.map (·.var_index)) l k v = true →
      FuseCond (renameFn v1 v2) (newFn v2) (newFn v1) l k v := by
  intro l k v hv w hw
  cases v with
  | mk dv j =>
    cases dv with
    | some d =>
      rw [shiftOutIterV_bound] at hw
      by_cases hdl : d < l
      · rw [if_pos hdl] at hw
        cases hw
      · rw [if_neg hdl] at hw
        cases hw
        have hf : renameFn v1 v2 k ⟨some (d - l), j⟩ = none :=
          slookup_renameSubstList_bound v1 v2 (d - l) j
        simp only [FuseAt]
        rw [hf]
        show newFn v2 k ⟨some (d - l), j⟩ = newFn v1 k ⟨some (d - l), j⟩
        show slookup (newSubstList v2 0) ⟨some (d - l), j⟩ =
          slookup (newSubstList v1 0) ⟨some (d - l), j⟩
        rw [slookup_newSubstList_bound, slookup_newSubstList_bound]
    | none =>
      rw [shiftOutIterV_free] at hw
      cases hw
      have hmem : j ∈ v1.map (·.var_index) := by
        simpa [freeOnlyB] using hv
      have hlen : v1.length = v2.length := by
        have := congrArg List.length hk
        simpa using this
      have hS := firstMatch2_isSome v1 v2 j hlen hmem
      cases hfm : firstMatch2 v1 v2 j with
      | none => rw [hfm] at hS; cases hS
      | some r =>
        obtain ⟨p, x, y⟩ := r
        obtain ⟨hg1, hg2, _hg3⟩ := firstMatch2_get v1 v2 j p x y hfm
        have hf : renameFn v1 v2 k ⟨none, j⟩ =
            some (Term.var x.kind ⟨none, y.var_index⟩) := by
          show slookup (renameSubstList v1 v2) ⟨none, j⟩ = _
          rw [slookup_renameSubstList_free, hfm]
          rfl
        simp only [FuseAt]
        rw [hf]
        have hrhs : newFn v1 k ⟨none, j⟩ = some (Term.var x.kind ⟨some 0, 0 + p⟩) := by
          show slookup (newSubstList v1 0) ⟨none, j⟩ = _
          rw [slookup_newSubstList_free, firstMatch2_fst v1 v2 j p x y hfm]
          rfl
        have hlhs : newFn v2 x.kind ⟨none, y.var_index⟩ =
            some (Term.var y.kind ⟨some 0, 0 + p⟩) := by
          show slookup (newSubstList v2 0) ⟨none, y.var_index⟩ = _
          rw [slookup_newSubstList_free, firstMatch_nodup_get v2 p y hnd2 hg2]
          rfl
        have hxy : x.kind = y.kind := map_kind_get v1 v2 p x y hk hg1 hg2
        simp only [Term.substitute]
        rw [hlhs, hrhs, hxy]
        rfl

/-- C3.  Alpha-equivalence by construction: for variable lists of pointwise
equal kinds, each with pairwise distinct identifiers, and a term whose free
variables all come from the first list, closing over `v1` yields the same
binder as renaming `v1` to `v2` in the term and closing over `v2`. -/
theorem new_alpha_equivalence (v1 v2 : List KindedVarIndex) (t : Term)
    (hk : v1.map (·.kind) = v2.map (·.kind))
    (_hnd1 : (v1.map (·.var_index)).Nodup)
    (hnd2 : (v2.map (·.var_index)).Nodup)
    (hfree : lvlOkB (freeOnlyB (v1.map (·.var_index))) 0 t = true) :
    Binder.new v1 t = Binder.new v2 (Substitution.apply (renameSubstList v1 v2) t) := by
  have hA : LvlOk (fun l k v => freeOnlyB (v1.map (·.var_index)) l k v = true) 0 t :=
    lvlOk_of_B _ _ (fun _ _ _ hh => hh) t 0 hfree
  have hC : LvlOk (FuseCond (renameFn v1 v2) (newFn v2) (newFn v1)) 0 t :=
    lvlOk_imp _ _ (renameNew_fuseCond v1 v2 hk hnd2) t 0 hA
  have hterm := substitute_fuse (renameFn v1 v2) (newFn v2) (newFn v1) t hC
  show Binder.mk (v1.map (·.kind)) (Term.substitute (newFn v1) t) =
    Binder.mk (v2.map (·.kind))
      (Term.substitute (newFn v2) (Term.substitute (renameFn v1 v2) t))
  rw [hk, hterm]

/-- Witness for C3 at two concrete disjoint variable lists. -/
theorem new_alpha_equivalence_witness :
    (([⟨ParameterKind.ty, 10⟩, ⟨ParameterKind.lt, 11⟩] :
        List KindedVarIndex).map (·.kind) =
      ([⟨ParameterKind.ty, 20⟩, ⟨ParameterKind.lt, 21⟩] :
        List KindedVarIndex).map (·.kind)) ∧
    ((([⟨ParameterKind.ty, 10⟩, ⟨ParameterKind.lt, 11⟩] :
        List KindedVarIndex).map (·.var_index)).Nodup) ∧
    ((([⟨ParameterKind.ty, 20⟩, ⟨ParameterKind.lt, 21⟩] :
        List KindedVarIndex).map (·.var_index)).Nodup) ∧
    (lvlOkB (freeOnlyB (([⟨ParameterKind.ty, 10⟩, ⟨ParameterKind.lt, 11⟩] :
        List KindedVarIndex).map (·.var_index))) 0
        (Term.app (Term.var .ty ⟨none, 10⟩) (Term.var .lt ⟨none, 11⟩)) = true) ∧
    Binder.new [⟨ParameterKind.ty, 10⟩, ⟨ParameterKind.lt, 11⟩]
        (Term.app (Term.var .ty ⟨none, 10⟩) (Term.var .lt ⟨none, 11⟩)) =
      Binder.new [⟨ParameterKind.ty, 20⟩, ⟨ParameterKind.lt, 21⟩]
        (Substitution.apply
          (renameSubstList [⟨ParameterKind.ty, 10⟩, ⟨ParameterKind.lt, 11⟩]
            [⟨ParameterKind.ty, 20⟩, ⟨ParameterKind.lt, 21⟩])
          (Term.app (Term.var .ty ⟨none, 10⟩) (Term.var .lt ⟨none, 11⟩))) :=
  ⟨by decide, by decide, by decide, by decide,
    new_alpha_equivalence
      [⟨ParameterKind.ty, 10⟩, ⟨ParameterKind.lt, 11⟩]
      [⟨ParameterKind.ty, 20⟩, ⟨ParameterKind.lt, 21⟩]
      (Term.app (Term.var .ty ⟨none, 10⟩) (Term.var .lt ⟨none, 11⟩))
      (by decide) (by decide) (by decide) (by decide)⟩

end Formality
